import Mathlib

/-!
Verification of the core of the `mmv` mass-move utility
(sources: src/lib/src/search_by_pattern.rs, src/lib/src/build_target_path.rs,
src/lib/src/mass_move.rs).

The Rust code delegates string matching to the `regex` crate.  The crate is an
external collaborator; it is modelled here exactly on the fragment of
expressions the tool generates: anchored sequences of literal characters
(possibly backslash-escaped), `.*` groups, and lazy capturing `(.*?)` groups.
Expressions outside that fragment are mapped to an explicit `outside` result
(their behaviour — which ranges from quantifier semantics to a compile error —
is not modelled), except for one shape that is certainly rejected by the
crate's parser (a character class opened at the end of the expression and
never closed), which is mapped to a `panic` result because the Rust code
unwraps the compilation result.
-/

set_option maxHeartbeats 1000000

namespace MMV

/-- Tokens of the anchored expressions the tool generates: a literal
character, or an "any sequence of characters" group (`.*` or `(.*?)`). -/
inductive Tok where
  | lit (c : Char)
  | star
  deriving DecidableEq, Repr

/-- Index of the last '/' in the list, if any (Rust's `str::rfind('/')`). -/
def rfindSlash : List Char → Option Nat
  | [] => none
  | c :: rest =>
    match rfindSlash rest with
    | some i => some (i + 1)
    | none => if c = '/' then some 0 else none

/-- `parse_full_path` (src/lib/src/search_by_pattern.rs, lines 64-73): split a
full path at the last '/' into (directory, tail); when there is no separator
the directory is empty and the tail is the whole input. -/
def parse_full_path (full_path : List Char) : List Char × List Char :=
  match rfindSlash full_path with
  | some i => (full_path.take i, full_path.drop (i + 1))
  | none => ([], full_path)

/-- Anchored run of a token sequence over a string, with capture extraction.
Each `star` group prefers the shortest capture, earlier groups having
priority — the leftmost-first preference order the regex crate assigns to
lazy `(.*?)` groups.  A `star` group is a repetition of the crate's `.`
which, in the default mode both call sites use, matches any character
except the newline, so a candidate capture containing a newline is no
match.  Returns the captures in group order on a match. -/
def extractToks : List Tok → List Char → Option (List (List Char))
  | [], [] => some []
  | [], _ :: _ => none
  | Tok.lit _ :: _, [] => none
  | Tok.lit c :: ps, x :: xs => if c = x then extractToks ps xs else none
  | Tok.star :: ps, s =>
    (List.range (s.length + 1)).findSome? fun k =>
      if '\n' ∈ s.take k then none
      else (extractToks ps (s.drop k)).map fun rest => s.take k :: rest

/-- Anchored boolean match of a token sequence (capture-free semantics; for
a pure match test greedy `.*` and lazy `(.*?)` groups accept the same
strings; as above, the character consumed by a group is the crate's `.` and
excludes the newline). -/
def toksMatchB : List Tok → List Char → Bool
  | [], [] => true
  | [], _ :: _ => false
  | Tok.lit _ :: _, [] => false
  | Tok.lit c :: ps, x :: xs => c = x && toksMatchB ps xs
  | Tok.star :: ps, s =>
    (List.range (s.length + 1)).any fun k =>
      if '\n' ∈ s.take k then false else toksMatchB ps (s.drop k)

/-- The token reading of a wildcard pattern: '*' is a wildcard group, every
other character is a literal. -/
def wildcardToks (w : List Char) : List Tok :=
  w.map fun c => if c = '*' then Tok.star else Tok.lit c

/-- The character set escaped by `regex::escape`
(regex-syntax's `is_meta_character`). -/
def escapeSet : List Char :=
  ['\\', '.', '+', '*', '?', '(', ')', '|', '[', ']', '{', '}', '^', '$',
   '#', '&', '-', '~']

/-- Characters that carry syntactic meaning when they appear unescaped
(outside a character class) in the regex crate's default syntax.  The
remaining members of `escapeSet` ('#', '&', '-', '~') are escaped by
`regex::escape` for future-proofing but are ordinary literals when bare. -/
def specialSet : List Char :=
  ['\\', '.', '+', '*', '?', '(', ')', '|', '[', ']', '{', '}', '^', '$']

/-- `regex::escape` on a single character. -/
def rustEscapeChar (c : Char) : List Char :=
  if c ∈ escapeSet then ['\\', c] else [c]

/-- `wildcard_to_regex_pattern` (src/lib/src/search_by_pattern.rs, lines
28-41): charwise translation — '*' to ".*", '.' to "\.", anything else through
`regex::escape` — wrapped in the anchors "^...$". -/
def wildcard_to_regex_pattern (wildcard : List Char) : List Char :=
  '^' :: (wildcard.flatMap fun c =>
    if c = '*' then ['.', '*']
    else if c = '.' then ['\\', '.']
    else rustEscapeChar c) ++ ['$']

/-- Rust's `str::replace` for a single-character needle: every occurrence of
`t` is replaced by `r`, left to right, without rescanning the replacement. -/
def replaceCharWith (t : Char) (r : List Char) : List Char → List Char
  | [] => []
  | c :: rest =>
    if c = t then r ++ replaceCharWith t r rest
    else c :: replaceCharWith t r rest

/-- The matching-expression string built inside `extract_generic_parts`
(src/lib/src/build_target_path.rs, lines 37-38):
`format!("^{}$", file_pattern.replace(".", r"\.").replace("*", "(.*?)"))`. -/
def extract_regex_string (file_pattern : List Char) : List Char :=
  '^' :: (replaceCharWith '*' ['(', '.', '*', '?', ')']
            (replaceCharWith '.' ['\\', '.'] file_pattern)) ++ ['$']

/-- Strip the leading '^' and trailing '$' the tool wraps around every
generated expression body. -/
def stripAnchors (s : List Char) : Option (List Char) :=
  match s with
  | '^' :: rest =>
    match rest.reverse with
    | '$' :: rev => some rev.reverse
    | _ => none
  | _ => none

/-- Scanner state for `parseCaptureToks`: between segments, after a
backslash, or `grp k` = after the first `k + 1` characters of `(.*?)`. -/
inductive CapMode where
  | normal
  | esc
  | grp (k : Nat)
  deriving DecidableEq

/-- Character-by-character parser behind `parseCaptureToks`. -/
def parseCapAux : CapMode → List Char → Option (List Tok)
  | CapMode.normal, [] => some []
  | CapMode.esc, [] => none
  | CapMode.grp _, [] => none
  | CapMode.normal, c :: rest =>
    if c = '\\' then parseCapAux CapMode.esc rest
    else if c = '(' then parseCapAux (CapMode.grp 0) rest
    else if c ∈ specialSet then none
    else (parseCapAux CapMode.normal rest).map (Tok.lit c :: ·)
  | CapMode.esc, c :: rest =>
    if c = '.' then (parseCapAux CapMode.normal rest).map (Tok.lit '.' :: ·)
    else none
  | CapMode.grp 0, c :: rest =>
    if c = '.' then parseCapAux (CapMode.grp 1) rest else none
  | CapMode.grp 1, c :: rest =>
    if c = '*' then parseCapAux (CapMode.grp 2) rest else none
  | CapMode.grp 2, c :: rest =>
    if c = '?' then parseCapAux (CapMode.grp 3) rest else none
  | CapMode.grp _, c :: rest =>
    if c = ')' then (parseCapAux CapMode.normal rest).map (Tok.star :: ·)
    else none

/-- Parse the body of a generated capture expression into tokens: `\.` is a
literal '.', `(.*?)` is a lazy wildcard group, and a character without
syntactic meaning stands for itself.  Anything else (an escape of another
character, a bare special character) is outside the modelled fragment. -/
def parseCaptureToks : List Char → Option (List Tok) :=
  parseCapAux CapMode.normal

/-- Scanner state for `parseMatchToks`: between segments, after a backslash,
or after the '.' of a `.*` group. -/
inductive MatMode where
  | normal
  | esc
  | dotStar
  deriving DecidableEq

/-- Character-by-character parser behind `parseMatchToks`. -/
def parseMatAux : MatMode → List Char → Option (List Tok)
  | MatMode.normal, [] => some []
  | MatMode.esc, [] => none
  | MatMode.dotStar, [] => none
  | MatMode.normal, c :: rest =>
    if c = '\\' then parseMatAux MatMode.esc rest
    else if c = '.' then parseMatAux MatMode.dotStar rest
    else if c ∈ specialSet then none
    else (parseMatAux MatMode.normal rest).map (Tok.lit c :: ·)
  | MatMode.esc, c :: rest =>
    if c ∈ escapeSet then (parseMatAux MatMode.normal rest).map (Tok.lit c :: ·)
    else none
  | MatMode.dotStar, c :: rest =>
    if c = '*' then (parseMatAux MatMode.normal rest).map (Tok.star :: ·)
    else none

/-- Parse the body of a generated match expression into tokens: `\c` (with `c`
in `regex::escape`'s set) is the literal `c`, `.*` is a wildcard group, and a
character without syntactic meaning stands for itself. -/
def parseMatchToks : List Char → Option (List Tok) :=
  parseMatAux MatMode.normal

/-- Number of leading backslashes. -/
def countLeadingBackslashes : List Char → Nat
  | '\\' :: rest => countLeadingBackslashes rest + 1
  | _ => 0

/-- The expression body ends with an unescaped '[': the character class opened
there is never closed, so the regex crate certainly rejects the expression. -/
def endsUnescapedOpenBracket (body : List Char) : Bool :=
  match body.reverse with
  | '[' :: rest => countLeadingBackslashes rest % 2 = 0
  | _ => false

/-- Outcome of handing a generated expression to `Regex::new`. -/
inductive RegexCompile where
  | ok (toks : List Tok)
  | failCompile
  | outside
  deriving DecidableEq, Repr

/-- Model of `Regex::new` on the capture expressions built by
`extract_generic_parts`: within the generated fragment it yields the token
sequence; a body ending in an unclosed character class is a compile error
(which the Rust code turns into a panic via `.unwrap()`); everything else is
outside the modelled fragment. -/
def rustRegexNew (s : List Char) : RegexCompile :=
  match stripAnchors s with
  | none => RegexCompile.outside
  | some body =>
    match parseCaptureToks body with
    | some toks => RegexCompile.ok toks
    | none =>
      if endsUnescapedOpenBracket body then RegexCompile.failCompile
      else RegexCompile.outside

/-- Result of `extract_generic_parts`: the captured parts, a panic of the
process (`Regex::new(..).unwrap()` on an invalid expression), or behaviour
outside the modelled regex fragment. -/
inductive ExtractResult where
  | ok (caps : List (List Char))
  | panic
  | outside
  deriving DecidableEq, Repr

/-- `extract_generic_parts` (src/lib/src/build_target_path.rs, lines 33-50):
keep only the filename components of the two paths, build the lazy capture
expression from the pattern, run it on the filename; on a match return the
captured groups in order, otherwise return the empty list. -/
def extract_generic_parts (full_path_with_filename : List Char)
    (full_path_with_file_pattern : List Char) : ExtractResult :=
  let filename := (parse_full_path full_path_with_filename).2
  let file_pattern := (parse_full_path full_path_with_file_pattern).2
  match rustRegexNew (extract_regex_string file_pattern) with
  | RegexCompile.ok toks =>
    match extractToks toks filename with
    | some caps => ExtractResult.ok caps
    | none => ExtractResult.ok []
  | RegexCompile.failCompile => ExtractResult.panic
  | RegexCompile.outside => ExtractResult.outside

/-! ### Generic helpers -/

theorem findSome?_append {α β : Type} {f : α → Option β} {l₁ l₂ : List α} :
    (l₁ ++ l₂).findSome? f =
      match l₁.findSome? f with
      | some b => some b
      | none => l₂.findSome? f := by
  induction l₁ with
  | nil => simp [List.findSome?_nil]
  | cons a as ih =>
    simp only [List.cons_append, List.findSome?_cons]
    cases f a <;> simp [ih]

theorem findSome?_range_none {β : Type} {f : Nat → Option β} {n : Nat}
    (h0 : ∀ k, k < n → f k = none) : (List.range n).findSome? f = none := by
  induction n with
  | zero => simp [List.findSome?_nil]
  | succ n ih =>
    rw [List.range_succ, findSome?_append, ih fun k hk => h0 k (by omega)]
    simp [h0 n (by omega)]

theorem findSome?_range_first {β : Type} {f : Nat → Option β} {n m : Nat}
    {v : β} (hm : m < n) (h0 : ∀ k, k < m → f k = none)
    (h1 : f m = some v) : (List.range n).findSome? f = some v := by
  induction n with
  | zero => omega
  | succ n ih =>
    rw [List.range_succ, findSome?_append]
    rcases Nat.lt_or_ge m n with h | h
    · rw [ih h]
    · have hmn : m = n := by omega
      subst hmn
      rw [findSome?_range_none h0]
      simp [h1]

theorem exists_of_findSome?_range {β : Type} {f : Nat → Option β} {n : Nat}
    {v : β} (h : (List.range n).findSome? f = some v) :
    ∃ k, k < n ∧ f k = some v := by
  induction n with
  | zero => simp [List.findSome?_nil] at h
  | succ n ih =>
    rw [List.range_succ, findSome?_append] at h
    cases hr : (List.range n).findSome? f with
    | some w =>
      rw [hr] at h
      obtain ⟨k, hk, hfk⟩ := ih (hr.trans h)
      exact ⟨k, by omega, hfk⟩
    | none =>
      rw [hr] at h
      have h2 : List.findSome? f [n] = some v := h
      rw [List.findSome?_cons] at h2
      cases hf : f n with
      | none => rw [hf] at h2; simp [List.findSome?_nil] at h2
      | some w => rw [hf] at h2; exact ⟨n, by omega, hf.trans h2⟩

theorem drop_len_add {α : Type} (a b : List α) (k : Nat) :
    (a ++ b).drop (a.length + k) = b.drop k := by
  induction a with
  | nil => simp
  | cons x xs ih =>
    rw [show (x :: xs).length + k = (xs.length + k) + 1 from by
      simp [Nat.add_assoc, Nat.add_comm 1 k]]
    simpa using ih

/-- Boolean prefix test on character lists. -/
def leadsWith : List Char → List Char → Bool
  | [], _ => true
  | _ :: _, [] => false
  | a :: as, b :: bs => a = b && leadsWith as bs

theorem leadsWith_append (l t : List Char) : leadsWith l (l ++ t) = true := by
  induction l with
  | nil => rfl
  | cons a as ih => simp [leadsWith, ih]

theorem eq_append_of_leadsWith {l s : List Char} (h : leadsWith l s = true) :
    s = l ++ s.drop l.length := by
  induction l generalizing s with
  | nil => simp
  | cons a as ih =>
    cases s with
    | nil => simp [leadsWith] at h
    | cons b bs =>
      simp only [leadsWith, Bool.and_eq_true, decide_eq_true_eq] at h
      obtain ⟨rfl, h2⟩ := h
      simpa using ih h2

/-! ### Path splitting (`parse_full_path`) -/

theorem rfindSlash_eq_none {s : List Char} (h : '/' ∉ s) :
    rfindSlash s = none := by
  induction s with
  | nil => rfl
  | cons c cs ih =>
    have hc : ¬ c = '/' := fun hce => h (hce ▸ List.mem_cons_self c cs)
    rw [rfindSlash, ih fun hm => h (List.mem_cons_of_mem _ hm)]
    simp [hc]

theorem rfindSlash_append_of_none {d t : List Char} (h : rfindSlash t = none) :
    rfindSlash (d ++ '/' :: t) = some d.length := by
  induction d with
  | nil => simp [rfindSlash, h]
  | cons c cs ih => rw [List.cons_append, rfindSlash, ih]; simp

theorem rfindSlash_append_of_some {d t : List Char} {i : Nat}
    (h : rfindSlash t = some i) :
    rfindSlash (d ++ '/' :: t) = some (d.length + 1 + i) := by
  induction d with
  | nil => simp [rfindSlash, h]; omega
  | cons c cs ih => rw [List.cons_append, rfindSlash, ih]; simp; omega

theorem parse_full_path_of_no_slash {s : List Char} (h : '/' ∉ s) :
    parse_full_path s = ([], s) := by
  unfold parse_full_path
  rw [rfindSlash_eq_none h]

theorem parse_full_path_split {d t : List Char} (ht : '/' ∉ t) :
    parse_full_path (d ++ '/' :: t) = (d, t) := by
  unfold parse_full_path
  rw [rfindSlash_append_of_none (rfindSlash_eq_none ht)]
  have h1 : (d ++ '/' :: t).take d.length = d := by
    rw [show d ++ '/' :: t = d ++ ('/' :: t) from rfl]
    simp
  have h2 : (d ++ '/' :: t).drop (d.length + 1) = t := by
    have := drop_len_add (d ++ ['/']) t 0
    simpa using this
  show ((d ++ '/' :: t).take d.length, (d ++ '/' :: t).drop (d.length + 1)) =
    (d, t)
  rw [h1, h2]

theorem parse_full_path_snd_append (d f : List Char) :
    (parse_full_path (d ++ '/' :: f)).2 = (parse_full_path f).2 := by
  unfold parse_full_path
  cases h : rfindSlash f with
  | none =>
    rw [rfindSlash_append_of_none h]
    have := drop_len_add (d ++ ['/']) f 0
    simpa using this
  | some i =>
    rw [rfindSlash_append_of_some h]
    have h2 : (d ++ '/' :: f).drop (d.length + 1 + i + 1) = f.drop (i + 1) := by
      have := drop_len_add (d ++ ['/']) f (i + 1)
      simp only [List.length_append, List.length_cons, List.length_nil] at this
      rw [show d.length + 1 + i + 1 = d.length + 1 + (i + 1) from by omega]
      simpa using this
    simpa using h2

/-! ### The token engine: literal runs and lazy stars -/

/-- A run of literal tokens. -/
def litToks (l : List Char) : List Tok := l.map Tok.lit

theorem extractToks_litToks_append (l : List Char) (ps : List Tok)
    (s : List Char) : extractToks (litToks l ++ ps) (l ++ s) =
      extractToks ps s := by
  simp only [litToks]
  induction l with
  | nil => rfl
  | cons c cs ih => simp [extractToks, ih]

theorem extractToks_litToks_none {l s : List Char} {ps : List Tok}
    (h : leadsWith l s = false) : extractToks (litToks l ++ ps) s = none := by
  simp only [litToks]
  induction l generalizing s with
  | nil => simp [leadsWith] at h
  | cons c cs ih =>
    cases s with
    | nil => simp [extractToks]
    | cons x xs =>
      simp only [leadsWith, Bool.and_eq_false_iff] at h
      by_cases hcx : c = x
      · subst hcx
        have h2 : leadsWith cs xs = false := by
          rcases h with h | h
          · simp at h
          · exact h
        simp [extractToks, ih h2]
      · simp [extractToks, hcx]

theorem extractToks_litToks_exact (l s : List Char) :
    extractToks (litToks l) s = if s = l then some [] else none := by
  simp only [litToks]
  induction l generalizing s with
  | nil => cases s <;> simp [extractToks]
  | cons c cs ih =>
    cases s with
    | nil => simp [extractToks]
    | cons x xs =>
      by_cases hcx : c = x
      · subst hcx
        simp only [List.map_cons, extractToks, if_pos rfl]
        rw [ih]
        by_cases hxs : xs = cs <;> simp [hxs]
      · have hne : ¬(x = c ∧ xs = cs) := fun hx => hcx hx.1.symm
        simp [extractToks, hcx, hne]

theorem extractToks_star_first {ps : List Tok} {s : List Char} {m : Nat}
    {v : List (List Char)} (hm : m ≤ s.length) (hnl : '\n' ∉ s.take m)
    (h0 : ∀ k, k < m → extractToks ps (s.drop k) = none)
    (h1 : extractToks ps (s.drop m) = some v) :
    extractToks (Tok.star :: ps) s = some (s.take m :: v) := by
  have heq : extractToks (Tok.star :: ps) s =
      (List.range (s.length + 1)).findSome? fun k =>
        if '\n' ∈ s.take k then none
        else (extractToks ps (s.drop k)).map fun rest => s.take k :: rest :=
    rfl
  rw [heq]
  refine @findSome?_range_first _ _ (s.length + 1) m _ (by omega) ?_ ?_
  · intro k hk
    by_cases hg : '\n' ∈ s.take k
    · rw [if_pos hg]
    · rw [if_neg hg, h0 k hk]
      rfl
  · rw [if_neg hnl, h1]
    rfl

/-- Number of wildcard groups in a token sequence. -/
def starCount (ts : List Tok) : Nat := ts.count Tok.star

theorem extractToks_length {ts : List Tok} {s : List Char}
    {caps : List (List Char)} (h : extractToks ts s = some caps) :
    caps.length = starCount ts := by
  induction ts generalizing s caps with
  | nil =>
    cases s with
    | nil =>
      simp only [extractToks, Option.some.injEq] at h
      simp [← h, starCount]
    | cons x xs => simp [extractToks] at h
  | cons t ts ih =>
    cases t with
    | lit c =>
      cases s with
      | nil => simp [extractToks] at h
      | cons x xs =>
        by_cases hcx : c = x
        · rw [extractToks, if_pos hcx] at h
          rw [ih h]
          simp [starCount, List.count_cons]
        · rw [extractToks, if_neg hcx] at h
          exact absurd h (by simp)
    | star =>
      rw [extractToks] at h
      obtain ⟨k, _, hfk⟩ := exists_of_findSome?_range h
      by_cases hg : '\n' ∈ s.take k
      · rw [if_pos hg] at hfk
        simp at hfk
      · rw [if_neg hg] at hfk
        cases hex : extractToks ts (s.drop k) with
        | none => rw [hex] at hfk; simp at hfk
        | some rest =>
          rw [hex] at hfk
          simp only [Option.map_some', Option.some.injEq] at hfk
          rw [← hfk]
          simp [starCount, List.count_cons, ih hex]

/-! ### The generated expression strings parse back to the intended tokens -/

/-- The per-character translation performed inside `extract_regex_string`. -/
def extTrans (c : Char) : List Char :=
  if c = '.' then ['\\', '.']
  else if c = '*' then ['(', '.', '*', '?', ')']
  else [c]

theorem replaceCharWith_append (t : Char) (r a b : List Char) :
    replaceCharWith t r (a ++ b) =
      replaceCharWith t r a ++ replaceCharWith t r b := by
  induction a with
  | nil => rfl
  | cons c cs ih => by_cases h : c = t <;> simp [replaceCharWith, h, ih]

theorem extract_regex_string_eq (p : List Char) :
    extract_regex_string p = '^' :: p.flatMap extTrans ++ ['$'] := by
  unfold extract_regex_string
  have inner : ∀ q : List Char,
      replaceCharWith '*' ['(', '.', '*', '?', ')']
        (replaceCharWith '.' ['\\', '.'] q) = q.flatMap extTrans := by
    intro q
    induction q with
    | nil => rfl
    | cons c cs ih =>
      by_cases hdot : c = '.'
      · subst hdot
        simp [replaceCharWith, extTrans, ih]
      · by_cases hstar : c = '*'
        · subst hstar
          simp [replaceCharWith, extTrans, ih]
        · simp [replaceCharWith, extTrans, hdot, hstar, ih]
  rw [inner]

theorem stripAnchors_wrap (x : List Char) :
    stripAnchors ('^' :: x ++ ['$']) = some x := by
  have h : (x ++ ['$']).reverse = '$' :: x.reverse := by simp
  simp [stripAnchors, h]

/-- A character of a wildcard pattern inside the modelled capture fragment:
'.', '*', or a character without regex syntax. -/
def tameChar (c : Char) : Prop := c = '.' ∨ c = '*' ∨ c ∉ specialSet

instance : DecidablePred tameChar := fun c => by
  unfold tameChar; infer_instance

/-- The wildcard patterns whose generated capture expression stays inside the
modelled regex fragment. -/
def tameForExtract (p : List Char) : Bool := p.all fun c => decide (tameChar c)

theorem parseCapAux_esc_dot (rest : List Char) :
    parseCapAux CapMode.normal ('\\' :: '.' :: rest) =
      (parseCapAux CapMode.normal rest).map (Tok.lit '.' :: ·) := rfl

theorem parseCapAux_group (rest : List Char) :
    parseCapAux CapMode.normal ('(' :: '.' :: '*' :: '?' :: ')' :: rest) =
      (parseCapAux CapMode.normal rest).map (Tok.star :: ·) := rfl

theorem parseCapAux_plain {c : Char} (h1 : ¬ c = '\\') (h2 : ¬ c = '(')
    (h3 : c ∉ specialSet) (rest : List Char) :
    parseCapAux CapMode.normal (c :: rest) =
      (parseCapAux CapMode.normal rest).map (Tok.lit c :: ·) := by
  simp [parseCapAux, h1, h2, h3]

theorem parseCaptureToks_flatMap {p : List Char} (h : ∀ c ∈ p, tameChar c) :
    parseCaptureToks (p.flatMap extTrans) = some (wildcardToks p) := by
  unfold parseCaptureToks
  induction p with
  | nil => rfl
  | cons c cs ih =>
    have hcs := ih fun x hx => h x (List.mem_cons_of_mem _ hx)
    rw [List.flatMap_cons]
    rcases h c (List.mem_cons_self c cs) with rfl | rfl | hns
    · rw [show extTrans '.' = ['\\', '.'] from rfl, List.cons_append,
        List.cons_append, List.nil_append, parseCapAux_esc_dot, hcs]
      simp [wildcardToks]
    · rw [show extTrans '*' = ['(', '.', '*', '?', ')'] from rfl]
      rw [show ((['(', '.', '*', '?', ')'] : List Char) ++
            cs.flatMap extTrans) =
          '(' :: '.' :: '*' :: '?' :: ')' :: cs.flatMap extTrans from rfl]
      rw [parseCapAux_group, hcs]
      simp [wildcardToks]
    · have h1 : ¬ c = '\\' := fun hc => hns (by rw [hc]; simp [specialSet])
      have h2 : ¬ c = '(' := fun hc => hns (by rw [hc]; simp [specialSet])
      have h3 : ¬ c = '.' := fun hc => hns (by rw [hc]; simp [specialSet])
      have h4 : ¬ c = '*' := fun hc => hns (by rw [hc]; simp [specialSet])
      rw [show extTrans c = [c] from by simp [extTrans, h3, h4],
        List.cons_append, List.nil_append, parseCapAux_plain h1 h2 hns, hcs]
      simp [wildcardToks, h4]

theorem rustRegexNew_tame {p : List Char} (h : tameForExtract p = true) :
    rustRegexNew (extract_regex_string p) =
      RegexCompile.ok (wildcardToks p) := by
  have h2 : ∀ c ∈ p, tameChar c := by
    intro c hc
    have := List.all_eq_true.mp h c hc
    exact of_decide_eq_true this
  rw [extract_regex_string_eq]
  unfold rustRegexNew
  rw [stripAnchors_wrap]
  show (match parseCaptureToks (p.flatMap extTrans) with
        | some toks => RegexCompile.ok toks
        | none =>
          if endsUnescapedOpenBracket (p.flatMap extTrans) = true then
            RegexCompile.failCompile
          else RegexCompile.outside) = RegexCompile.ok (wildcardToks p)
  rw [parseCaptureToks_flatMap h2]

/-! ### Claim C7: the path splitter -/

/-- C7: `parse_full_path` splits at the last occurrence of '/': the directory
is everything strictly before that separator and the tail everything after
it; with no separator the directory is empty and the tail is the whole
input; in particular split("a/b/c.txt") = ("a/b", "c.txt") and
split("c.txt") = ("", "c.txt"). -/
theorem parse_full_path_last_slash_spec (s d t : List Char) :
    ('/' ∉ s → parse_full_path s = ([], s)) ∧
    ('/' ∉ t → parse_full_path (d ++ '/' :: t) = (d, t)) ∧
    parse_full_path "a/b/c.txt".toList = ("a/b".toList, "c.txt".toList) ∧
    parse_full_path "c.txt".toList = ([], "c.txt".toList) := by
  refine ⟨fun h => parse_full_path_of_no_slash h,
    fun h => parse_full_path_split h, ?_, ?_⟩ <;> decide

/-- Witness for C7 at concrete inputs. -/
theorem parse_full_path_last_slash_spec_witness :
    parse_full_path "ab".toList = ([], "ab".toList) ∧
    parse_full_path ("xy".toList ++ '/' :: "c.txt".toList) =
      ("xy".toList, "c.txt".toList) :=
  ⟨(parse_full_path_last_slash_spec "ab".toList [] []).1 (by decide),
   (parse_full_path_last_slash_spec [] "xy".toList "c.txt".toList).2.1
     (by decide)⟩

/-! ### Claim C10: extraction only sees filename components -/

/-- C10: capture extraction operates only on the filename components of its
two arguments — prepending any directory (ending in '/') to either argument
does not change the result. -/
theorem extract_generic_parts_ignores_directories (d1 d2 f p : List Char) :
    extract_generic_parts (d1 ++ '/' :: f) (d2 ++ '/' :: p) =
      extract_generic_parts f p := by
  simp only [extract_generic_parts]
  rw [parse_full_path_snd_append, parse_full_path_snd_append]

/-! ### Claim C8: non-greedy tie-break, concrete boundary cases -/

/-- C8: extraction prefers the shortest capture per group, left to right:
extract("some_file_name", "som*e_n*") = ["e_fil", "ame"], and
extract("a_b", "a_*b") = [""] — the empty capture is preserved. -/
theorem extract_non_greedy_tie_break :
    extract_generic_parts "some_file_name".toList "som*e_n*".toList =
      ExtractResult.ok ["e_fil".toList, "ame".toList] ∧
    extract_generic_parts "a_b".toList "a_*b".toList =
      ExtractResult.ok [[]] := by
  exact ⟨rfl, rfl⟩

/-! ### Claim C3: what the capture-expression builder escapes -/

/-- Modelled from the spec (§4.3): a matching-expression builder in which
every literal character of the pattern is escaped (with `regex::escape`'s
character set) and every '*' becomes a lazy capturing group, anchored. -/
def extract_regex_string_spec (file_pattern : List Char) : List Char :=
  '^' :: (file_pattern.flatMap fun c =>
    if c = '*' then ['(', '.', '*', '?', ')'] else rustEscapeChar c) ++ ['$']

/-- C3 counterexample: the code escapes only '.', so for the pattern "a+b" it
builds "^a+b$", while the spec-described builder (escaping every
metacharacter) builds "^a\+b$"; the two differ, and '+' keeps its quantifier
meaning during extraction instead of being matched literally. -/
theorem extract_regex_string_escape_counterexample :
    extract_regex_string "a+b".toList ≠
      extract_regex_string_spec "a+b".toList := by decide

/-- C3 amended: the builder anchors the expression and performs exactly the
charwise translation '.' to "\.", '*' to the lazy capturing group "(.*?)";
every other character — including regex metacharacters such as '(', '+',
'[' — passes through unescaped, keeping its regex meaning. -/
theorem extract_regex_string_charwise (p : List Char) :
    extract_regex_string p = '^' :: p.flatMap extTrans ++ ['$'] :=
  extract_regex_string_eq p

/-! ### Claim C4: totality of extraction -/

theorem findSome?_isSome_iff {α β : Type} (f : α → Option β) (l : List α) :
    (l.findSome? f).isSome = true ↔ ∃ x ∈ l, (f x).isSome = true := by
  induction l with
  | nil => simp [List.findSome?_nil]
  | cons a as ih =>
    rw [List.findSome?_cons]
    cases hf : f a with
    | some b => simp [hf]
    | none => simp [hf, ih]

/-- The boolean match and the capture extraction agree on when a string
matches an anchored token sequence. -/
theorem toksMatchB_eq_isSome (ts : List Tok) (s : List Char) :
    toksMatchB ts s = (extractToks ts s).isSome := by
  induction ts generalizing s with
  | nil => cases s <;> rfl
  | cons t ps ih =>
    cases t with
    | lit c =>
      cases s with
      | nil => rfl
      | cons x xs =>
        by_cases hcx : c = x
        · rw [show toksMatchB (Tok.lit c :: ps) (x :: xs) =
              (decide (c = x) && toksMatchB ps xs) from rfl,
            show extractToks (Tok.lit c :: ps) (x :: xs) =
              if c = x then extractToks ps xs else none from rfl,
            if_pos hcx, ih]
          simp [hcx]
        · rw [show toksMatchB (Tok.lit c :: ps) (x :: xs) =
              (decide (c = x) && toksMatchB ps xs) from rfl,
            show extractToks (Tok.lit c :: ps) (x :: xs) =
              if c = x then extractToks ps xs else none from rfl,
            if_neg hcx]
          simp [hcx]
    | star =>
      rw [show toksMatchB (Tok.star :: ps) s =
          ((List.range (s.length + 1)).any fun k =>
            if '\n' ∈ s.take k then false else toksMatchB ps (s.drop k))
          from rfl,
        show extractToks (Tok.star :: ps) s =
          ((List.range (s.length + 1)).findSome? fun k =>
            if '\n' ∈ s.take k then none
            else (extractToks ps (s.drop k)).map fun rest =>
              s.take k :: rest) from rfl]
      by_cases h : ∃ k ∈ List.range (s.length + 1),
          '\n' ∉ s.take k ∧ (extractToks ps (s.drop k)).isSome = true
      · have h1 : ((List.range (s.length + 1)).findSome? fun k =>
            if '\n' ∈ s.take k then none
            else (extractToks ps (s.drop k)).map fun rest =>
              s.take k :: rest).isSome = true := by
          rw [findSome?_isSome_iff]
          obtain ⟨k, hk, hg, hs⟩ := h
          refine ⟨k, hk, ?_⟩
          rw [if_neg hg]
          cases he : extractToks ps (s.drop k) with
          | none => rw [he] at hs; simp at hs
          | some v => simp [he]
        rw [h1, List.any_eq_true]
        obtain ⟨k, hk, hg, hs⟩ := h
        refine ⟨k, hk, ?_⟩
        rw [if_neg hg, ih]
        exact hs
      · have h1 : ((List.range (s.length + 1)).findSome? fun k =>
            if '\n' ∈ s.take k then none
            else (extractToks ps (s.drop k)).map fun rest =>
              s.take k :: rest).isSome = false := by
          rw [Bool.eq_false_iff]
          intro hcon
          rw [findSome?_isSome_iff] at hcon
          obtain ⟨k, hk, hs⟩ := hcon
          by_cases hg : '\n' ∈ s.take k
          · rw [if_pos hg] at hs
            simp at hs
          · rw [if_neg hg] at hs
            refine h ⟨k, hk, hg, ?_⟩
            cases he : extractToks ps (s.drop k) with
            | none => rw [he] at hs; simp at hs
            | some v => simp [he]
        rw [h1, Bool.eq_false_iff, Ne, List.any_eq_true]
        intro hcon
        obtain ⟨k, hk, hs⟩ := hcon
        by_cases hg : '\n' ∈ s.take k
        · rw [if_pos hg] at hs
          exact Bool.noConfusion hs
        · rw [if_neg hg, ih] at hs
          exact h ⟨k, hk, hg, hs⟩

theorem starCount_wildcardToks (p : List Char) :
    starCount (wildcardToks p) = p.count '*' := by
  induction p with
  | nil => rfl
  | cons c cs ih =>
    by_cases h : c = '*' <;>
      simp [wildcardToks, starCount, List.count_cons, h, ih, Tok.lit.injEq] <;>
      simp [starCount, wildcardToks] at ih <;> omega

/-- C4 counterexample: for the pattern "[" the generated expression "^[$"
contains an unclosed character class; `Regex::new` rejects it and the
`.unwrap()` in `extract_generic_parts` panics — extraction does fail on this
filename/pattern pair instead of returning an empty sequence. -/
theorem extract_generic_parts_panic_counterexample :
    extract_generic_parts "x".toList "[".toList = ExtractResult.panic := by
  decide

/-- When the generated expression compiles to `toks`, extraction is the run
of `toks` on the filename. -/
theorem extract_generic_parts_ok_toks {ffn fpp : List Char} {toks : List Tok}
    (hc : rustRegexNew (extract_regex_string (parse_full_path fpp).2) =
      RegexCompile.ok toks) :
    extract_generic_parts ffn fpp =
      match extractToks toks (parse_full_path ffn).2 with
      | some caps => ExtractResult.ok caps
      | none => ExtractResult.ok [] := by
  simp only [extract_generic_parts]
  rw [hc]

/-- C4 amended: for every filename and every wildcard pattern whose filename
component stays in the tame fragment (each character '.', '*', or free of
regex syntax), extraction never fails: it returns a capture list, which is
empty when the pattern does not match the filename, and has exactly one
captured string per '*' when it does. -/
theorem extract_generic_parts_total_tame (ffn fpp : List Char)
    (h : tameForExtract (parse_full_path fpp).2 = true) :
    ∃ caps, extract_generic_parts ffn fpp = ExtractResult.ok caps ∧
      (toksMatchB (wildcardToks (parse_full_path fpp).2)
          (parse_full_path ffn).2 = false → caps = []) ∧
      (toksMatchB (wildcardToks (parse_full_path fpp).2)
          (parse_full_path ffn).2 = true →
        caps.length = (parse_full_path fpp).2.count '*') := by
  rw [extract_generic_parts_ok_toks (rustRegexNew_tame h)]
  cases hex : extractToks (wildcardToks (parse_full_path fpp).2)
      (parse_full_path ffn).2 with
  | none =>
    refine ⟨[], rfl, fun _ => rfl, fun hm => ?_⟩
    rw [toksMatchB_eq_isSome, hex] at hm
    simp at hm
  | some caps =>
    refine ⟨caps, rfl, fun hm => ?_, fun _ => ?_⟩
    · rw [toksMatchB_eq_isSome, hex] at hm
      simp at hm
    · rw [extractToks_length hex, starCount_wildcardToks]

/-- Witness for C4 (amended) at a concrete tame pattern. -/
theorem extract_generic_parts_total_tame_witness :
    tameForExtract (parse_full_path "a_*b".toList).2 = true ∧
    ∃ caps, extract_generic_parts "a_b".toList "a_*b".toList =
        ExtractResult.ok caps ∧
      (toksMatchB (wildcardToks (parse_full_path "a_*b".toList).2)
          (parse_full_path "a_b".toList).2 = false → caps = []) ∧
      (toksMatchB (wildcardToks (parse_full_path "a_*b".toList).2)
          (parse_full_path "a_b".toList).2 = true →
        caps.length = (parse_full_path "a_*b".toList).2.count '*') :=
  ⟨by decide, extract_generic_parts_total_tame "a_b".toList "a_*b".toList
    (by decide)⟩

/-! ### Claim C6: the compiled matcher -/

/-- The per-character translation performed by `wildcard_to_regex_pattern`. -/
def matTrans (c : Char) : List Char :=
  if c = '*' then ['.', '*']
  else if c = '.' then ['\\', '.']
  else rustEscapeChar c

theorem wildcard_to_regex_pattern_eq (w : List Char) :
    wildcard_to_regex_pattern w = '^' :: w.flatMap matTrans ++ ['$'] := by
  unfold wildcard_to_regex_pattern matTrans
  rfl

theorem parseMatAux_dot_star (rest : List Char) :
    parseMatAux MatMode.normal ('.' :: '*' :: rest) =
      (parseMatAux MatMode.normal rest).map (Tok.star :: ·) := rfl

theorem parseMatAux_esc_mem {c : Char} (h : c ∈ escapeSet)
    (rest : List Char) : parseMatAux MatMode.normal ('\\' :: c :: rest) =
      (parseMatAux MatMode.normal rest).map (Tok.lit c :: ·) := by
  show parseMatAux MatMode.esc (c :: rest) =
    (parseMatAux MatMode.normal rest).map (Tok.lit c :: ·)
  simp [parseMatAux, h]

theorem parseMatAux_plain {c : Char} (h1 : ¬ c = '\\') (h2 : ¬ c = '.')
    (h3 : c ∉ specialSet) (rest : List Char) :
    parseMatAux MatMode.normal (c :: rest) =
      (parseMatAux MatMode.normal rest).map (Tok.lit c :: ·) := by
  simp [parseMatAux, h1, h2, h3]

theorem specialSet_sub_escapeSet {c : Char} (h : c ∈ specialSet) :
    c ∈ escapeSet := by
  simp only [specialSet, List.mem_cons, List.not_mem_nil, or_false] at h
  rcases h with rfl | rfl | rfl | rfl | rfl | rfl | rfl | rfl | rfl | rfl |
    rfl | rfl | rfl | rfl <;> simp [escapeSet]

theorem parseMatchToks_flatMap (w : List Char) :
    parseMatchToks (w.flatMap matTrans) = some (wildcardToks w) := by
  unfold parseMatchToks
  induction w with
  | nil => rfl
  | cons c cs ih =>
    rw [List.flatMap_cons]
    by_cases hstar : c = '*'
    · subst hstar
      rw [show matTrans '*' = ['.', '*'] from rfl, List.cons_append,
        List.cons_append, List.nil_append, parseMatAux_dot_star, ih]
      simp [wildcardToks]
    · by_cases hdot : c = '.'
      · subst hdot
        rw [show matTrans '.' = ['\\', '.'] from rfl, List.cons_append,
          List.cons_append, List.nil_append,
          parseMatAux_esc_mem (by simp [escapeSet]), ih]
        simp [wildcardToks]
      · by_cases hesc : c ∈ escapeSet
        · rw [show matTrans c = ['\\', c] from by
              simp [matTrans, hstar, hdot, rustEscapeChar, hesc],
            List.cons_append, List.cons_append, List.nil_append,
            parseMatAux_esc_mem hesc, ih]
          simp [wildcardToks, hstar]
        · have h1 : ¬ c = '\\' := fun hc => hesc (by rw [hc]; simp [escapeSet])
          have h3 : c ∉ specialSet := fun hc => hesc (specialSet_sub_escapeSet hc)
          rw [show matTrans c = [c] from by
              simp [matTrans, hstar, hdot, rustEscapeChar, hesc],
            List.cons_append, List.nil_append, parseMatAux_plain h1 hdot h3, ih]
          simp [wildcardToks, hstar]

/-- Model of `Regex::new` on the match expressions built by
`wildcard_to_regex_pattern`: parse the anchored body to tokens.  The
generated expressions always parse (`rustRegexNewMatch_wildcard`). -/
def rustRegexNewMatch (s : List Char) : Option (List Tok) :=
  (stripAnchors s).bind parseMatchToks

/-- Model of `Regex::is_match` on a compiled match expression: run the
anchored token match; the `none` default is unreachable for the expressions
`find_matching_files` compiles. -/
def regexIsMatch (s : List Char) (f : List Char) : Bool :=
  match rustRegexNewMatch s with
  | some toks => toksMatchB toks f
  | none => false

theorem rustRegexNewMatch_wildcard (w : List Char) :
    rustRegexNewMatch (wildcard_to_regex_pattern w) =
      some (wildcardToks w) := by
  rw [wildcard_to_regex_pattern_eq]
  unfold rustRegexNewMatch
  rw [stripAnchors_wrap]
  show parseMatchToks (w.flatMap matTrans) = some (wildcardToks w)
  exact parseMatchToks_flatMap w

/-- Replace each '*' of the pattern by the corresponding part; fails when the
number of parts differs from the number of wildcards. -/
def wildcardFill : List Char → List (List Char) → Option (List Char)
  | [], parts => if parts.isEmpty then some [] else none
  | c :: rest, parts =>
    if c = '*' then
      match parts with
      | [] => none
      | part :: parts2 => (wildcardFill rest parts2).map (part ++ ·)
    else (wildcardFill rest parts).map (c :: ·)

theorem drop_len {α : Type} (a b : List α) : (a ++ b).drop a.length = b := by
  have := drop_len_add a b 0
  simpa using this

theorem wildcardFill_nil (parts : List (List Char)) :
    wildcardFill [] parts = if parts.isEmpty then some [] else none := rfl

theorem wildcardFill_star (rest : List Char) (part : List Char)
    (parts : List (List Char)) : wildcardFill ('*' :: rest) (part :: parts) =
      (wildcardFill rest parts).map (part ++ ·) := rfl

theorem wildcardFill_star_nil (rest : List Char) :
    wildcardFill ('*' :: rest) [] = none := rfl

theorem wildcardFill_lit {c : Char} (h : ¬ c = '*') (rest : List Char)
    (parts : List (List Char)) : wildcardFill (c :: rest) parts =
      (wildcardFill rest parts).map (c :: ·) := by
  show (if c = '*' then
          match parts with
          | [] => none
          | part :: parts2 => (wildcardFill rest parts2).map (part ++ ·)
        else (wildcardFill rest parts).map (c :: ·)) =
    (wildcardFill rest parts).map (c :: ·)
  rw [if_neg h]

theorem toksMatchB_iff_fill (w : List Char) (f : List Char) :
    toksMatchB (wildcardToks w) f = true ↔
      ∃ parts, (∀ part ∈ parts, '\n' ∉ part) ∧
        wildcardFill w parts = some f := by
  induction w generalizing f with
  | nil =>
    constructor
    · intro h
      cases f with
      | nil => exact ⟨[], by simp, rfl⟩
      | cons x xs => simp [wildcardToks, toksMatchB] at h
    · rintro ⟨parts, _, hp⟩
      rw [wildcardFill_nil] at hp
      by_cases he : parts.isEmpty = true
      · simp [he] at hp
        subst hp
        rfl
      · simp [he] at hp
  | cons c cs ih =>
    by_cases hstar : c = '*'
    · subst hstar
      rw [show wildcardToks ('*' :: cs) = Tok.star :: wildcardToks cs from by
        simp [wildcardToks]]
      constructor
      · intro h
        rw [toksMatchB, List.any_eq_true] at h
        obtain ⟨k, hk, hm⟩ := h
        by_cases hg : '\n' ∈ f.take k
        · rw [if_pos hg] at hm
          exact absurd hm (by simp)
        · rw [if_neg hg] at hm
          obtain ⟨parts, hnlp, hp⟩ := (ih _).mp hm
          refine ⟨f.take k :: parts, ?_, ?_⟩
          · intro part hpart
            rcases List.mem_cons.mp hpart with rfl | h2
            · exact hg
            · exact hnlp part h2
          · rw [wildcardFill_star, hp]
            simp [List.take_append_drop]
      · rintro ⟨parts, hnl, hp⟩
        cases parts with
        | nil => rw [wildcardFill_star_nil] at hp; exact absurd hp (by simp)
        | cons part parts2 =>
          rw [wildcardFill_star] at hp
          cases hg : wildcardFill cs parts2 with
          | none => rw [hg] at hp; simp at hp
          | some g =>
            rw [hg] at hp
            simp only [Option.map_some', Option.some.injEq] at hp
            rw [toksMatchB, List.any_eq_true]
            refine ⟨part.length, ?_, ?_⟩
            · rw [List.mem_range, ← hp]
              simp only [List.length_append]
              omega
            · rw [← hp]
              have htk : (part ++ g).take part.length = part := by simp
              rw [if_neg (by
                rw [htk]
                exact hnl part (List.mem_cons_self part parts2))]
              rw [drop_len part g]
              exact (ih g).mpr ⟨parts2,
                fun x hx => hnl x (List.mem_cons_of_mem _ hx), hg⟩
    · rw [show wildcardToks (c :: cs) = Tok.lit c :: wildcardToks cs from by
        simp [wildcardToks, hstar]]
      constructor
      · intro h
        cases f with
        | nil => simp [toksMatchB] at h
        | cons x xs =>
          rw [toksMatchB, Bool.and_eq_true, decide_eq_true_eq] at h
          obtain ⟨rfl, hm⟩ := h
          obtain ⟨parts, hnlp, hp⟩ := (ih _).mp hm
          exact ⟨parts, hnlp, by rw [wildcardFill_lit hstar, hp]; rfl⟩
      · rintro ⟨parts, hnl, hp⟩
        rw [wildcardFill_lit hstar] at hp
        cases hg : wildcardFill cs parts with
        | none => rw [hg] at hp; simp at hp
        | some g =>
          rw [hg] at hp
          simp only [Option.map_some', Option.some.injEq] at hp
          rw [← hp, toksMatchB, Bool.and_eq_true, decide_eq_true_eq]
          exact ⟨rfl, (ih g).mpr ⟨parts, hnl, hg⟩⟩

/-- C6 counterexample: the filename "a\nb" equals the pattern "a*b" with the
'*' replaced by the sequence "\n", yet the compiled matcher rejects it — the
generated `.*` uses the crate's `.`, which does not match the newline, so a
'*' does not stand for an arbitrary character sequence. -/
theorem wildcard_match_newline_counterexample :
    wildcardFill "a*b".toList [['\n']] = some ('a' :: '\n' :: ['b']) ∧
    regexIsMatch (wildcard_to_regex_pattern "a*b".toList)
      ('a' :: '\n' :: ['b']) = false := by decide

/-- C6 amended: the compiled matcher accepts a filename iff the filename
equals the pattern with each '*' replaced by some (possibly empty) sequence
of non-newline characters; every non-'*' character — regex metacharacters
and '.' included — is matched literally, and the match is anchored to the
whole string. -/
theorem wildcard_match_iff_fill (w f : List Char) :
    regexIsMatch (wildcard_to_regex_pattern w) f = true ↔
      ∃ parts, (∀ part ∈ parts, '\n' ∉ part) ∧
        wildcardFill w parts = some f := by
  unfold regexIsMatch
  rw [rustRegexNewMatch_wildcard]
  show toksMatchB (wildcardToks w) f = true ↔ _
  exact toksMatchB_iff_fill w f

/-! ### Claim C1: target building (`build_target_path`) -/

/-- Decimal value of a digit run (the `caps[1].parse::<usize>()` step). -/
def digitsVal (ds : List Char) : Nat :=
  ds.foldl (fun a c => a * 10 + (c.toNat - '0'.toNat)) 0

/-- 2^64: a value of at least this magnitude does not fit in `usize` (the
tool targets a 64-bit platform), so `.parse::<usize>()` fails and the
`.expect("Invalid index")` panics. -/
def usizeLimit : Nat := 18446744073709551616

/-- The closure handed to `replace_all` (src/lib/src/build_target_path.rs,
lines 85-93), for one candidate marker whose digit run is `acc`; `acc = []`
stands for a lone '#' that the marker regex `#(\d+)` did not match (left as
literal text).  `none` models a panic of the closure: a run whose value
exceeds `usize` fails to parse (`.expect`), and index 0 passes the
`index <= len` bound check (0 <= len always holds) and then evaluates
`substr_to_insert[0 - 1]`, an out-of-range index.  The scan reads digit
runs with the ASCII digits; `build_target_path` below restricts the model
to all-ASCII filename templates, on which this coincides with the marker
regex's Unicode-aware `\d` (`\p{Nd}` ∩ ASCII = 0-9). -/
def markerSub (caps : List (List Char)) (acc : List Char) :
    Option (List Char) :=
  if acc.isEmpty then some ['#']
  else
    let n := digitsVal acc
    if usizeLimit ≤ n then none
    else if n = 0 then none
    else if n ≤ caps.length then some (caps.getD (n - 1) [])
    else some []

/-- Scan modelling `regex.replace_all` with the pattern `#(\d+)`: `pending`
is `some acc` while inside the digit run of a candidate marker, where `acc`
holds the digits seen so far. -/
def substAux (caps : List (List Char)) :
    Option (List Char) → List Char → Option (List Char)
  | none, [] => some []
  | some acc, [] => markerSub caps acc
  | none, c :: rest =>
    if c = '#' then substAux caps (some []) rest
    else (substAux caps none rest).map (c :: ·)
  | some acc, c :: rest =>
    if c.isDigit then substAux caps (some (acc ++ [c])) rest
    else if c = '#' then
      (markerSub caps acc).bind fun sub =>
        (substAux caps (some []) rest).map (sub ++ ·)
    else
      (markerSub caps acc).bind fun sub =>
        (substAux caps none rest).map fun r => sub ++ c :: r

/-- The marker-substitution pass of `build_target_path`. -/
def substMarkers (caps : List (List Char)) (t : List Char) :
    Option (List Char) :=
  substAux caps none t

/-- Outcome of `build_target_path`: a built path, a panic of the process
(invalid marker index), or a template outside the modelled fragment. -/
inductive BuildResult where
  | ok (path : List Char)
  | panic
  | outside
  deriving DecidableEq, Repr

/-- Every character is ASCII. -/
def allASCII (l : List Char) : Bool := l.all fun c => c.toNat < 128

/-- `build_target_path` (src/lib/src/build_target_path.rs, lines 82-96):
split the template at the last '/', substitute the `#i` markers in the
filename part, and reassemble as `directory ++ "/" ++ substituted`
(`format!("{}/{}", ..)` inserts the separator even for an empty directory).
`panic` models the panic the function's own documentation announces for an
invalid marker index.  The marker regex's `\d` is Unicode-aware (`\p{Nd}`);
within ASCII that class is exactly the digits 0-9, so the ASCII scan of
`substMarkers` is faithful on all-ASCII filename templates.  A template
with any non-ASCII character in its filename part is left outside the
model: an unmodelled Unicode decimal digit there could join a marker run
and make `caps[1].parse::<usize>()` panic. -/
def build_target_path (substr_to_insert : List (List Char))
    (full_output_path_pattern : List Char) : BuildResult :=
  let pr := parse_full_path full_output_path_pattern
  if allASCII pr.2 then
    match substMarkers substr_to_insert pr.2 with
    | some fn => BuildResult.ok (pr.1 ++ '/' :: fn)
    | none => BuildResult.panic
  else BuildResult.outside

/-- Sanity: the first repository unit test of `build_target_path`. -/
theorem build_target_path_repo_test1 :
    build_target_path ["hello".toList, "world".toList, "txt".toList]
      "path/to/#1_#2.#3".toList =
      BuildResult.ok "path/to/hello_world.txt".toList := by
  decide

/-- Sanity: the second repository unit test of `build_target_path`
(repeated and out-of-range markers). -/
theorem build_target_path_repo_test2 :
    build_target_path [[], "he".toList, "j".toList]
      "path/to/#1#2#2#2_#3_#4.txt".toList =
      BuildResult.ok "path/to/hehehe_j_.txt".toList := by decide

/-- C1 counterexample: the marker `#0` is not substituted with the empty
string — index 0 passes the `index <= len` check and the closure evaluates
`substr_to_insert[0 - 1]`, which panics, so `build_target_path` fails on
this input rather than returning a result. -/
theorem build_target_path_zero_marker_counterexample :
    build_target_path [] "#0".toList = BuildResult.panic := by decide

/-- One item of a destination filename template: a literal character, or a
marker '#' followed by the digit run `ds`. -/
inductive TItem where
  | lit (c : Char)
  | marker (ds : List Char)
  deriving DecidableEq

def renderItem : TItem → List Char
  | TItem.lit c => [c]
  | TItem.marker ds => '#' :: ds

def renderItems (items : List TItem) : List Char :=
  items.flatMap renderItem

/-- The substitution §4.4 of the spec prescribes for one item:
`captures[i-1]` for a marker with 1 ≤ i ≤ len, the empty string for an
out-of-range marker, the character itself for a literal. -/
def substItem (caps : List (List Char)) : TItem → List Char
  | TItem.lit c => [c]
  | TItem.marker ds =>
    if 1 ≤ digitsVal ds ∧ digitsVal ds ≤ caps.length then
      caps.getD (digitsVal ds - 1) []
    else []

def startsWithDigitItem : List TItem → Bool
  | TItem.lit c :: _ => c.isDigit
  | _ => false

/-- Well-formed template item lists: every marker has a nonempty ASCII digit
run with value in [1, 2^64), no item after a marker starts with a digit
(the run is maximal), and a literal '#' is not followed by a digit-leading
item (it would itself open a marker). -/
def wfItems : List TItem → Bool
  | [] => true
  | TItem.lit c :: rest =>
    (if c = '#' then !startsWithDigitItem rest else true) && wfItems rest
  | TItem.marker ds :: rest =>
    (!ds.isEmpty) && ds.all Char.isDigit && decide (1 ≤ digitsVal ds) &&
      decide (digitsVal ds < usizeLimit) && (!startsWithDigitItem rest) &&
      wfItems rest

theorem substAux_collect (caps : List (List Char)) {ds : List Char}
    (hds : ∀ c ∈ ds, c.isDigit = true) (acc t : List Char) :
    substAux caps (some acc) (ds ++ t) = substAux caps (some (acc ++ ds)) t := by
  induction ds generalizing acc with
  | nil => simp
  | cons d ds2 ih =>
    rw [List.cons_append]
    rw [show substAux caps (some acc) (d :: (ds2 ++ t)) =
        substAux caps (some (acc ++ [d])) (ds2 ++ t) from by
      simp [substAux, hds d (List.mem_cons_self d ds2)]]
    rw [ih (fun c hc => hds c (List.mem_cons_of_mem _ hc)) (acc ++ [d])]
    simp

theorem markerSub_wf (caps : List (List Char)) {ds : List Char}
    (hne : ds.isEmpty = false) (h1 : 1 ≤ digitsVal ds)
    (h2 : digitsVal ds < usizeLimit) :
    markerSub caps ds = some (substItem caps (TItem.marker ds)) := by
  unfold markerSub substItem
  rw [hne]
  simp only [Bool.false_eq_true, if_false]
  rw [if_neg (by omega), if_neg (by omega)]
  by_cases hlen : digitsVal ds ≤ caps.length
  · rw [if_pos hlen, if_pos ⟨h1, hlen⟩]
  · rw [if_neg hlen, if_neg (by exact fun h => hlen h.2)]

theorem substAux_pending_marker (caps : List (List Char)) {ds : List Char}
    {t : List Char} (hne : ds.isEmpty = false) (h1 : 1 ≤ digitsVal ds)
    (h2 : digitsVal ds < usizeLimit)
    (ht : ∀ c, t.head? = some c → c.isDigit = false) :
    substAux caps (some ds) t =
      (substAux caps none t).map (substItem caps (TItem.marker ds) ++ ·) := by
  cases t with
  | nil =>
    rw [show substAux caps (some ds) [] = markerSub caps ds from rfl,
      markerSub_wf caps hne h1 h2]
    simp [substAux]
  | cons c rest =>
    have hc : c.isDigit = false := ht c rfl
    by_cases hhash : c = '#'
    · subst hhash
      rw [show substAux caps (some ds) ('#' :: rest) =
          (markerSub caps ds).bind fun sub =>
            (substAux caps (some []) rest).map (sub ++ ·) from by
        simp [substAux, hc]]
      rw [markerSub_wf caps hne h1 h2]
      rw [show substAux caps none ('#' :: rest) =
          substAux caps (some []) rest from by simp [substAux]]
      cases substAux caps (some []) rest <;> simp
    · rw [show substAux caps (some ds) (c :: rest) =
          (markerSub caps ds).bind fun sub =>
            (substAux caps none rest).map (fun r => sub ++ c :: r) from by
        simp [substAux, hc, hhash]]
      rw [markerSub_wf caps hne h1 h2]
      rw [show substAux caps none (c :: rest) =
          (substAux caps none rest).map (c :: ·) from by
        simp [substAux, hhash]]
      cases substAux caps none rest <;> simp

theorem substAux_pending_hash (caps : List (List Char)) {t : List Char}
    (ht : ∀ c, t.head? = some c → c.isDigit = false) :
    substAux caps (some []) t = (substAux caps none t).map ('#' :: ·) := by
  cases t with
  | nil => rfl
  | cons c rest =>
    have hc : c.isDigit = false := ht c rfl
    by_cases hhash : c = '#'
    · subst hhash
      rw [show substAux caps (some []) ('#' :: rest) =
          (markerSub caps []).bind fun sub =>
            (substAux caps (some []) rest).map (sub ++ ·) from by
        simp [substAux, hc]]
      rw [show markerSub caps [] = some ['#'] from rfl]
      rw [show substAux caps none ('#' :: rest) =
          substAux caps (some []) rest from by simp [substAux]]
      cases substAux caps (some []) rest <;> simp
    · rw [show substAux caps (some []) (c :: rest) =
          (markerSub caps []).bind fun sub =>
            (substAux caps none rest).map (fun r => sub ++ c :: r) from by
        simp [substAux, hc, hhash]]
      rw [show markerSub caps [] = some ['#'] from rfl]
      rw [show substAux caps none (c :: rest) =
          (substAux caps none rest).map (c :: ·) from by
        simp [substAux, hhash]]
      cases substAux caps none rest <;> simp

theorem renderItems_head_not_digit {items : List TItem}
    (h : startsWithDigitItem items = false) :
    ∀ c, (renderItems items).head? = some c → c.isDigit = false := by
  intro c hc
  cases items with
  | nil => simp [renderItems] at hc
  | cons it rest =>
    cases it with
    | lit b =>
      simp only [renderItems, List.flatMap_cons, renderItem,
        List.cons_append, List.head?_cons, Option.some.injEq] at hc
      subst hc
      simpa [startsWithDigitItem] using h
    | marker ds =>
      simp only [renderItems, List.flatMap_cons, renderItem,
        List.cons_append, List.head?_cons, Option.some.injEq] at hc
      subst hc
      decide

theorem substAux_renderItems (caps : List (List Char)) {items : List TItem}
    (hwf : wfItems items = true) :
    substAux caps none (renderItems items) =
      some (items.flatMap (substItem caps)) := by
  induction items with
  | nil => rfl
  | cons it rest ih =>
    cases it with
    | lit c =>
      rw [wfItems] at hwf
      rw [Bool.and_eq_true] at hwf
      obtain ⟨hcond, hrest⟩ := hwf
      rw [show renderItems (TItem.lit c :: rest) =
          c :: renderItems rest from by simp [renderItems, renderItem]]
      by_cases hhash : c = '#'
      · subst hhash
        have hsd : startsWithDigitItem rest = false := by
          rw [if_pos rfl] at hcond
          simpa using hcond
        rw [show substAux caps none ('#' :: renderItems rest) =
            substAux caps (some []) (renderItems rest) from by
          simp [substAux]]
        rw [substAux_pending_hash caps (renderItems_head_not_digit hsd),
          ih hrest]
        simp [substItem]
      · rw [show substAux caps none (c :: renderItems rest) =
            (substAux caps none (renderItems rest)).map (c :: ·) from by
          simp [substAux, hhash]]
        rw [ih hrest]
        simp [substItem]
    | marker ds =>
      rw [wfItems] at hwf
      simp only [Bool.and_eq_true, Bool.not_eq_true', decide_eq_true_eq] at hwf
      obtain ⟨⟨⟨⟨⟨hne, hdig⟩, h1⟩, h2⟩, hsd⟩, hrest⟩ := hwf
      rw [show renderItems (TItem.marker ds :: rest) =
          '#' :: (ds ++ renderItems rest) from by
        simp [renderItems, renderItem]]
      rw [show substAux caps none ('#' :: (ds ++ renderItems rest)) =
          substAux caps (some []) (ds ++ renderItems rest) from by
        simp [substAux]]
      rw [substAux_collect caps (fun c hc => List.all_eq_true.mp hdig c hc) []
        (renderItems rest)]
      rw [List.nil_append]
      rw [substAux_pending_marker caps hne h1 h2
        (renderItems_head_not_digit hsd), ih hrest]
      simp

/-- C1 amended: for an all-ASCII, well-formed destination filename template
(each marker `#i` has a maximal nonempty digit run with 1 ≤ i < 2^64),
build_target_path always returns a result and substitutes each marker
occurrence independently: `captures[i-1]` when i ≤ len(captures), the empty
string when i > len(captures).  (A marker `#0` or an index ≥ 2^64 panics
instead — see the counterexample — and templates with non-ASCII characters,
where an unmodelled Unicode decimal digit could extend a marker run and
panic the index parse, are outside the model.) -/
theorem build_target_path_markers (caps : List (List Char)) (dir : List Char)
    (items : List TItem) (hwf : wfItems items = true)
    (hascii : allASCII (renderItems items) = true)
    (hnoslash : '/' ∉ renderItems items) :
    build_target_path caps (dir ++ '/' :: renderItems items) =
      BuildResult.ok (dir ++ '/' :: items.flatMap (substItem caps)) := by
  simp only [build_target_path, substMarkers]
  rw [parse_full_path_split hnoslash, hascii, substAux_renderItems caps hwf]
  rfl

/-- Witness for C1 (amended) at a concrete template "out/#1_#2". -/
theorem build_target_path_markers_witness :
    wfItems [TItem.marker ['1'], TItem.lit '_', TItem.marker ['2']] = true ∧
    allASCII (renderItems [TItem.marker ['1'], TItem.lit '_',
      TItem.marker ['2']]) = true ∧
    build_target_path ["x".toList, "y".toList]
      ("out".toList ++ '/' ::
        renderItems [TItem.marker ['1'], TItem.lit '_',
          TItem.marker ['2']]) =
      BuildResult.ok ("out".toList ++ '/' ::
        ([TItem.marker ['1'], TItem.lit '_',
          TItem.marker ['2']].flatMap
            (substItem ["x".toList, "y".toList]))) :=
  ⟨by decide, by decide,
   build_target_path_markers ["x".toList, "y".toList] "out".toList
    [TItem.marker ['1'], TItem.lit '_', TItem.marker ['2']]
    (by decide) (by decide) (by decide)⟩

/-! ### Claim C5: round-trip of filling and extracting -/

/-- Interleave literal chunks `c0, c1, ..., cn` with parts `p1, ..., pn`
into `c0 ++ p1 ++ c1 ++ ... ++ pn ++ cn` (the pattern with each '*'
replaced by the corresponding part). -/
def fillChunks : List (List Char) → List (List Char) → Option (List Char)
  | [], _ => none
  | l :: ls, [] => if ls.isEmpty then some l else none
  | l :: ls, part :: parts =>
    (fillChunks ls parts).map fun r => l ++ part ++ r

/-- The wildcard pattern whose literal chunks are `chunks` ('*' between
consecutive chunks). -/
def renderPattern : List (List Char) → List Char
  | [] => []
  | l :: ls => if ls.isEmpty then l else l ++ '*' :: renderPattern ls

/-- The token sequence of the wildcard pattern with literal chunks
`chunks`. -/
def chunksToks : List (List Char) → List Tok
  | [] => []
  | l :: ls => litToks l ++ ls.flatMap fun l2 => Tok.star :: litToks l2

/-- No-collision condition of one star: its part `p` followed by the next
literal chunk `l` contains no occurrence of `l` before position
`p.length` (and an empty next chunk — adjacent stars — forces an empty
part). -/
def goodPair (p l : List Char) : Bool :=
  if l.isEmpty then p.isEmpty
  else (List.range p.length).all fun k => !leadsWith l ((p ++ l).drop k)

/-- The spec's "no pattern-breaking literal collisions" side condition:
`goodPair` for every star except the last. -/
def noCollide : List (List Char) → List (List Char) → Bool
  | p :: parts, l :: ls =>
    (if ls.isEmpty then true else goodPair p l) && noCollide parts ls
  | _, _ => true

theorem leadsWith_append_of_le {l s : List Char} (t : List Char)
    (h : l.length ≤ s.length) : leadsWith l (s ++ t) = leadsWith l s := by
  induction l generalizing s with
  | nil => rfl
  | cons c cs ih =>
    cases s with
    | nil => simp at h
    | cons x xs =>
      simp only [List.cons_append, leadsWith]
      rw [show xs.append t = xs ++ t from rfl, ih (by simpa using h)]

theorem fillChunks_cons_ex {l : List Char} {ls parts : List (List Char)}
    {r : List Char} (h : fillChunks (l :: ls) parts = some r) :
    ∃ r2, r = l ++ r2 := by
  cases parts with
  | nil =>
    cases ls with
    | nil =>
      refine ⟨[], ?_⟩
      have : r = l := by
        have h2 : fillChunks [l] [] = some l := rfl
        rw [h2] at h
        exact (Option.some.inj h).symm
      simp [this]
    | cons l2 ls2 =>
      rw [show fillChunks (l :: l2 :: ls2) [] = none from rfl] at h
      exact absurd h (by simp)
  | cons part parts2 =>
    rw [show fillChunks (l :: ls) (part :: parts2) =
        (fillChunks ls parts2).map (fun r => l ++ part ++ r) from rfl] at h
    cases hg : fillChunks ls parts2 with
    | none => rw [hg] at h; exact absurd h (by simp)
    | some g =>
      rw [hg] at h
      simp only [Option.map_some', Option.some.injEq] at h
      exact ⟨part ++ g, by rw [← h]; simp⟩

theorem extractToks_fillChunks :
    ∀ (ls : List (List Char)) (l0 : List Char) (parts : List (List Char))
      (filled : List Char),
      fillChunks (l0 :: ls) parts = some filled →
      (∀ part ∈ parts, '\n' ∉ part) →
      noCollide parts ls = true →
      extractToks (chunksToks (l0 :: ls)) filled = some parts := by
  intro ls
  induction ls with
  | nil =>
    intro l0 parts filled hfill _ _
    cases parts with
    | cons part parts2 =>
      rw [show fillChunks [l0] (part :: parts2) =
          (fillChunks [] parts2).map (fun r => l0 ++ part ++ r) from rfl,
        show fillChunks ([] : List (List Char)) parts2 = none from rfl]
        at hfill
      exact absurd hfill (by simp)
    | nil =>
      have : filled = l0 := by
        rw [show fillChunks [l0] [] = some l0 from rfl] at hfill
        exact (Option.some.inj hfill).symm
      subst this
      rw [show chunksToks [filled] = litToks filled from by
        simp [chunksToks]]
      rw [extractToks_litToks_exact]
      simp
  | cons l1 ls2 ih =>
    intro l0 parts filled hfill hnl hnc
    cases parts with
    | nil =>
      rw [show fillChunks (l0 :: l1 :: ls2) [] = none from rfl] at hfill
      exact absurd hfill (by simp)
    | cons p1 parts2 =>
      rw [show fillChunks (l0 :: l1 :: ls2) (p1 :: parts2) =
          (fillChunks (l1 :: ls2) parts2).map
            (fun r => l0 ++ p1 ++ r) from rfl] at hfill
      cases hrest : fillChunks (l1 :: ls2) parts2 with
      | none => rw [hrest] at hfill; exact absurd hfill (by simp)
      | some rest =>
        rw [hrest] at hfill
        simp only [Option.map_some', Option.some.injEq] at hfill
        subst hfill
        rw [show noCollide (p1 :: parts2) (l1 :: ls2) =
            ((if ls2.isEmpty then true else goodPair p1 l1) &&
              noCollide parts2 ls2) from rfl, Bool.and_eq_true] at hnc
        obtain ⟨hgp, hnc2⟩ := hnc
        rw [show chunksToks (l0 :: l1 :: ls2) =
            litToks l0 ++ (Tok.star :: chunksToks (l1 :: ls2)) from by
          simp [chunksToks, litToks]]
        rw [show l0 ++ p1 ++ rest = l0 ++ (p1 ++ rest) from by simp,
          extractToks_litToks_append]
        obtain ⟨rest2, hrest2⟩ := fillChunks_cons_ex hrest
        have hstep : extractToks (chunksToks (l1 :: ls2)) rest =
            some parts2 := ih l1 parts2 rest hrest
          (fun x hx => hnl x (List.mem_cons_of_mem _ hx)) hnc2
        have htake : (p1 ++ rest).take p1.length = p1 := by simp
        have h0 : ∀ k, k < p1.length →
            extractToks (chunksToks (l1 :: ls2)) ((p1 ++ rest).drop k) =
              none := by
          intro k hk
          rw [show chunksToks (l1 :: ls2) =
              litToks l1 ++ ls2.flatMap (fun l2 => Tok.star :: litToks l2)
              from rfl]
          cases hls2 : ls2 with
          | nil =>
            -- last chunk: the remaining pattern is the literal run l1 and
            -- the remaining text is strictly longer than l1
            have hrl : rest = l1 := by
              subst hls2
              cases parts2 with
              | cons q qs =>
                rw [show fillChunks [l1] (q :: qs) =
                    (fillChunks [] qs).map (fun r => l1 ++ q ++ r) from rfl,
                  show fillChunks ([] : List (List Char)) qs = none from rfl]
                  at hrest
                exact absurd hrest (by simp)
              | nil =>
                rw [show fillChunks [l1] [] = some l1 from rfl] at hrest
                exact (Option.some.inj hrest).symm
            subst hls2
            simp only [List.flatMap_nil, List.append_nil]
            rw [extractToks_litToks_exact]
            have hlen : ((p1 ++ rest).drop k).length ≠ l1.length := by
              rw [List.length_drop, List.length_append, hrl]
              omega
            rw [if_neg fun he => hlen (by rw [he])]
          | cons a as =>
            -- inner chunk: goodPair forbids an occurrence of l1 before
            -- position p1.length
            have hgp2 : goodPair p1 l1 = true := by
              rw [hls2] at hgp
              simpa using hgp
            apply extractToks_litToks_none
            by_cases hl1 : l1.isEmpty
            · have hp1 : p1.isEmpty = true := by
                rw [goodPair, if_pos hl1] at hgp2
                exact hgp2
              rw [List.isEmpty_iff] at hp1
              subst hp1
              simp at hk
            · rw [goodPair, if_neg hl1] at hgp2
              have := List.all_eq_true.mp hgp2 k (by
                rw [List.mem_range]; exact hk)
              simp only [Bool.not_eq_true'] at this
              rw [hrest2, show p1 ++ (l1 ++ rest2) = (p1 ++ l1) ++ rest2
                from by simp]
              rw [List.drop_append_of_le_length (by
                rw [List.length_append]; omega)]
              rw [leadsWith_append_of_le rest2 (by
                rw [List.length_drop, List.length_append]
                omega)]
              exact this
        have h1 : extractToks (chunksToks (l1 :: ls2))
            ((p1 ++ rest).drop p1.length) = some parts2 := by
          rw [drop_len p1 rest]
          exact hstep
        have hmain := @extractToks_star_first (chunksToks (l1 :: ls2))
          (p1 ++ rest) p1.length parts2 (by simp)
          (by rw [htake]; exact hnl p1 (List.mem_cons_self p1 parts2)) h0 h1
        rw [htake] at hmain
        exact hmain

theorem wildcardToks_starfree {l : List Char} (h : ∀ c ∈ l, ¬ c = '*') :
    wildcardToks l = litToks l := by
  induction l with
  | nil => rfl
  | cons c cs ih =>
    simp only [wildcardToks, litToks, List.map_cons] at ih ⊢
    rw [if_neg (h c (List.mem_cons_self c cs)),
      ih fun x hx => h x (List.mem_cons_of_mem _ hx)]

theorem wildcardToks_renderPattern :
    ∀ (ls : List (List Char)) (l0 : List Char),
      (∀ l ∈ l0 :: ls, ∀ c ∈ l, ¬ c = '*') →
      wildcardToks (renderPattern (l0 :: ls)) = chunksToks (l0 :: ls) := by
  intro ls
  induction ls with
  | nil =>
    intro l0 h
    rw [show renderPattern [l0] = l0 from by simp [renderPattern],
      show chunksToks [l0] = litToks l0 from by simp [chunksToks]]
    exact wildcardToks_starfree (h l0 (List.mem_cons_self _ _))
  | cons l1 ls2 ih =>
    intro l0 h
    rw [show renderPattern (l0 :: l1 :: ls2) =
        l0 ++ '*' :: renderPattern (l1 :: ls2) from by
      simp [renderPattern]]
    rw [show wildcardToks (l0 ++ '*' :: renderPattern (l1 :: ls2)) =
        wildcardToks l0 ++ Tok.star ::
          wildcardToks (renderPattern (l1 :: ls2)) from by
      simp [wildcardToks]]
    rw [ih l1 fun l hl => h l (List.mem_cons_of_mem _ hl),
      wildcardToks_starfree (h l0 (List.mem_cons_self _ _))]
    rw [show chunksToks (l0 :: l1 :: ls2) =
        litToks l0 ++ Tok.star :: chunksToks (l1 :: ls2) from by
      simp [chunksToks, litToks]]

/-- C5 counterexample: the parts ["\n"] carry no pattern-breaking literal
collision for the pattern "a*b" (`noCollide` holds, the pattern is tame and
star-free in its chunks), and filling gives the filename "a\nb"; yet
extraction does not return ["\n"] — the lazy group is a repetition of the
crate's `.`, which does not match the newline, so `^a(.*?)b$` fails to match
"a\nb" and the program returns the empty sequence. -/
theorem extract_fill_round_trip_counterexample :
    fillChunks [['a'], ['b']] [['\n']] = some ('a' :: '\n' :: ['b']) ∧
    noCollide [['\n']] [['b']] = true ∧
    tameForExtract (renderPattern [['a'], ['b']]) = true ∧
    extract_generic_parts ('a' :: '\n' :: ['b'])
      (renderPattern [['a'], ['b']]) = ExtractResult.ok [] ∧
    ExtractResult.ok ([] : List (List Char)) ≠ ExtractResult.ok [['\n']] := by
  refine ⟨by decide, by decide, by decide, by decide, by decide⟩

/-- C5 amended: round-trip — for a wildcard pattern given by its literal
chunks and parts that contain no newline and no pattern-breaking literal
collisions (`noCollide`), extracting from the filename obtained by replacing
each '*' with the corresponding part returns exactly those parts. -/
theorem extract_fill_round_trip (l0 : List Char)
    (ls parts : List (List Char)) (filled : List Char)
    (hfill : fillChunks (l0 :: ls) parts = some filled)
    (hnl : ∀ part ∈ parts, '\n' ∉ part)
    (hnc : noCollide parts ls = true)
    (hstar : ∀ l ∈ l0 :: ls, ∀ c ∈ l, ¬ c = '*')
    (htame : tameForExtract (renderPattern (l0 :: ls)) = true)
    (hslashp : '/' ∉ renderPattern (l0 :: ls)) (hslashf : '/' ∉ filled) :
    extract_generic_parts filled (renderPattern (l0 :: ls)) =
      ExtractResult.ok parts := by
  have hsnd : (parse_full_path (renderPattern (l0 :: ls))).2 =
      renderPattern (l0 :: ls) := by
    rw [parse_full_path_of_no_slash hslashp]
  have hc : rustRegexNew (extract_regex_string
      (parse_full_path (renderPattern (l0 :: ls))).2) =
      RegexCompile.ok (chunksToks (l0 :: ls)) := by
    rw [hsnd, rustRegexNew_tame htame, wildcardToks_renderPattern ls l0 hstar]
  rw [extract_generic_parts_ok_toks hc]
  rw [show (parse_full_path filled).2 = filled from by
    rw [parse_full_path_of_no_slash hslashf]]
  rw [extractToks_fillChunks ls l0 parts filled hfill hnl hnc]

/-- Witness for C5 on the pattern "som*e_n*" with parts ["e_fil", "ame"]. -/
theorem extract_fill_round_trip_witness :
    fillChunks ["som".toList, "e_n".toList, []]
      ["e_fil".toList, "ame".toList] = some "some_file_name".toList ∧
    noCollide ["e_fil".toList, "ame".toList] ["e_n".toList, []] = true ∧
    extract_generic_parts "some_file_name".toList
      (renderPattern ["som".toList, "e_n".toList, []]) =
      ExtractResult.ok ["e_fil".toList, "ame".toList] :=
  ⟨by decide, by decide,
   extract_fill_round_trip "som".toList ["e_n".toList, []]
     ["e_fil".toList, "ame".toList] "some_file_name".toList
     (by decide) (by decide) (by decide) (by decide) (by decide) (by decide)
     (by decide)⟩

/-! ### Filesystem model, search, and the move orchestrator -/

/-- Model of the filesystem as the orchestration sees it: the readable
directories and the existing files (full paths).  Directory listings are
derived from the file set (directory-typed entries inside a listed directory
are not modelled); a path "exists" when it is a file or a directory.
Primitive failures that the Rust code turns into a process abort
(`create_dir_all(..).expect(..)`) are not modelled. -/
structure FS where
  dirs : List (List Char)
  files : List (List Char)
  deriving DecidableEq

/-- `fs::read_dir`: the entry names of directory `d`, or `none` when it is
not readable. -/
def FS.readDir (fs : FS) (d : List Char) : Option (List (List Char)) :=
  if d ∈ fs.dirs then
    some (fs.files.filterMap fun f =>
      if (parse_full_path f).1 = d then some (parse_full_path f).2 else none)
  else none

/-- `Path::exists`. -/
def FS.pexists (fs : FS) (p : List Char) : Bool :=
  decide (p ∈ fs.files ∨ p ∈ fs.dirs)

/-- `fs::remove_file`: defined exactly when the path is a file. -/
def FS.removeFile (fs : FS) (p : List Char) : Option FS :=
  if p ∈ fs.files then some { fs with files := fs.files.erase p } else none

/-- `fs::rename`: move a file, silently replacing any file already at the
destination; fails when the source is not a file. -/
def FS.rename (fs : FS) (s d : List Char) : Option FS :=
  if s ∈ fs.files then
    some { fs with files := d :: ((fs.files.erase s).erase d) }
  else none

/-- The filtering half of `find_matching_files`: keep the entries matched by
the compiled pattern, reassembled as `dir ++ "/" ++ name`; an empty match
set is an error quoting the full queried path. -/
def collectMatching (full_path : List Char) (entries : List (List Char)) :
    Except (List Char) (List (List Char)) :=
  let pr := parse_full_path full_path
  let matching := (entries.filter fun name =>
    regexIsMatch (wildcard_to_regex_pattern pr.2) name).map
    fun name => pr.1 ++ '/' :: name
  if matching.isEmpty then
    Except.error ("mmv: Files for pattern ".toList ++ Char.ofNat 39 ::
      (full_path ++ Char.ofNat 39 :: " not found".toList))
  else Except.ok matching

/-- `find_matching_files` (src/lib/src/search_by_pattern.rs, lines 96-118):
split the queried path, compile the wildcard pattern, filter the directory
entries; an unreadable directory or an empty match set is an error. -/
def find_matching_files (fs : FS) (full_path : List Char) :
    Except (List Char) (List (List Char)) :=
  match fs.readDir (parse_full_path full_path).1 with
  | none => Except.error "mmv: Not able to read directory".toList
  | some entries => collectMatching full_path entries

/-- Outcome of `mass_move`: success, an error string (io-error texts inside
messages are not modelled beyond their fixed prefix), a panic of the
process, or behaviour outside the modelled regex fragment. -/
inductive MassResult where
  | ok
  | err (msg : List Char)
  | panic
  | outside
  deriving DecidableEq

/-- One iteration of the validation pass of `mass_move`
(src/lib/src/mass_move.rs, lines 36-55): extract the captures, build the
destination, and check for a collision; without `force` a collision aborts
immediately, with `force` the existing destination file is deleted here.
Returns the computed destination and the (possibly updated) filesystem. -/
def validateStep (sp dp : List Char) (force : Bool) (fs : FS)
    (src : List Char) : MassResult ⊕ (List Char × FS) :=
  match extract_generic_parts src sp with
  | ExtractResult.panic => Sum.inl MassResult.panic
  | ExtractResult.outside => Sum.inl MassResult.outside
  | ExtractResult.ok parts =>
    match build_target_path parts dp with
    | BuildResult.panic => Sum.inl MassResult.panic
    | BuildResult.outside => Sum.inl MassResult.outside
    | BuildResult.ok dest =>
      if fs.pexists dest then
        if force then
          match fs.removeFile dest with
          | some fs2 => Sum.inr (dest, fs2)
          | none => Sum.inl (MassResult.err
              "mmv: Not able to replace existing file".toList)
        else
          Sum.inl (MassResult.err
            ("mmv: Not able to replace existing file: ".toList ++ dest))
      else Sum.inr (dest, fs)

/-- The validation pass over all matched sources, in order. -/
def validateLoop (sp dp : List Char) (force : Bool) :
    FS → List (List Char) → List (List Char × List Char) →
      (MassResult ⊕ List (List Char × List Char)) × FS
  | fs, [], acc => (Sum.inr acc, fs)
  | fs, src :: rest, acc =>
    match validateStep sp dp force fs src with
    | Sum.inl r => (Sum.inl r, fs)
    | Sum.inr (dest, fs2) =>
      validateLoop sp dp force fs2 rest (acc ++ [(src, dest)])

/-- Rename pass (src/lib/src/mass_move.rs, lines 62-69): renames in order;
the first failure aborts and earlier renames stand. -/
def renameLoop : FS → List (List Char × List Char) → MassResult × FS
  | fs, [] => (MassResult.ok, fs)
  | fs, (s, d) :: rest =>
    match fs.rename s d with
    | some fs2 => renameLoop fs2 rest
    | none => (MassResult.err "Error: ".toList, fs)

/-- Steps 56-70 of `mass_move`: ensure the destination directory exists,
then execute the renames. -/
def finishMove (dp : List Char) :
    (MassResult ⊕ List (List Char × List Char)) × FS → MassResult × FS
  | (Sum.inl r, fs2) => (r, fs2)
  | (Sum.inr pairs, fs2) =>
    let dir := (parse_full_path dp).1
    let fs3 := if fs2.pexists dir then fs2
      else { fs2 with dirs := dir :: fs2.dirs }
    renameLoop fs3 pairs

/-- `mass_move` (src/lib/src/mass_move.rs, lines 28-71). -/
def mass_move (fs : FS) (source_pattern destination_pattern : List Char)
    (force : Bool) : MassResult × FS :=
  match find_matching_files fs source_pattern with
  | Except.error e => (MassResult.err e, fs)
  | Except.ok source_files =>
    finishMove destination_pattern
      (validateLoop source_pattern destination_pattern force fs
        source_files [])

/-! ### Claim C9: error cases of the search -/

/-- C9: `find_matching_files` returns an error — not an empty list — both
when the directory cannot be read and when no entry matches the compiled
pattern; the no-match error message contains the full queried pattern path
verbatim. -/
theorem find_matching_files_error_cases (fs : FS) (full_path : List Char) :
    (fs.readDir (parse_full_path full_path).1 = none →
      find_matching_files fs full_path =
        Except.error "mmv: Not able to read directory".toList) ∧
    (∀ entries, fs.readDir (parse_full_path full_path).1 = some entries →
      (entries.filter fun name =>
        regexIsMatch
          (wildcard_to_regex_pattern (parse_full_path full_path).2) name) =
        [] →
      find_matching_files fs full_path = Except.error
        ("mmv: Files for pattern ".toList ++ Char.ofNat 39 ::
          (full_path ++ Char.ofNat 39 :: " not found".toList))) := by
  constructor
  · intro hnone
    simp only [find_matching_files]
    rw [hnone]
  · intro entries hread hfilter
    simp only [find_matching_files]
    rw [hread]
    show collectMatching full_path entries = _
    simp only [collectMatching]
    rw [hfilter]
    rfl

/-- Witness for C9: an unreadable directory, and a readable directory whose
single entry does not match. -/
theorem find_matching_files_error_cases_witness :
    find_matching_files ⟨[], []⟩ "d/*.txt".toList =
      Except.error "mmv: Not able to read directory".toList ∧
    find_matching_files ⟨["d".toList], ["d/a.bin".toList]⟩
        "d/*.txt".toList =
      Except.error ("mmv: Files for pattern ".toList ++ Char.ofNat 39 ::
        ("d/*.txt".toList ++ Char.ofNat 39 :: " not found".toList)) :=
  ⟨(find_matching_files_error_cases ⟨[], []⟩ "d/*.txt".toList).1 (by decide),
   (find_matching_files_error_cases ⟨["d".toList], ["d/a.bin".toList]⟩
     "d/*.txt".toList).2 ["a.bin".toList] (by decide) (by decide)⟩

/-! ### Claim C2: force = false aborts before any mutation -/

/-- The destination `mass_move` computes for one source file. -/
def plannedDest (sp dp src : List Char) : Option (List Char) :=
  match extract_generic_parts src sp with
  | ExtractResult.ok parts =>
    match build_target_path parts dp with
    | BuildResult.ok path => some path
    | _ => none
  | _ => none

/-- A validated source with a free destination passes its step, leaving the
filesystem untouched. -/
theorem validateStep_free {sp dp : List Char} {force : Bool} {fs : FS}
    {src d : List Char} (hd : plannedDest sp dp src = some d)
    (hdex : fs.pexists d = false) :
    validateStep sp dp force fs src = Sum.inr (d, fs) := by
  unfold plannedDest at hd
  unfold validateStep
  cases hext : extract_generic_parts src sp with
  | panic => rw [hext] at hd; exact absurd hd (by simp)
  | outside => rw [hext] at hd; exact absurd hd (by simp)
  | ok parts =>
    rw [hext] at hd
    have hd2 : (match build_target_path parts dp with
                | BuildResult.ok path => some path
                | _ => none) = some d := hd
    show (match build_target_path parts dp with
          | BuildResult.panic => Sum.inl MassResult.panic
          | BuildResult.outside => Sum.inl MassResult.outside
          | BuildResult.ok dest =>
            if fs.pexists dest = true then
              if force = true then
                match fs.removeFile dest with
                | some fs2 => Sum.inr (dest, fs2)
                | none => Sum.inl (MassResult.err
                    "mmv: Not able to replace existing file".toList)
              else Sum.inl (MassResult.err
                ("mmv: Not able to replace existing file: ".toList ++ dest))
            else Sum.inr (dest, fs)) = Sum.inr (d, fs)
    cases hbuild : build_target_path parts dp with
    | panic => rw [hbuild] at hd2; exact absurd hd2 (by simp)
    | outside => rw [hbuild] at hd2; exact absurd hd2 (by simp)
    | ok path =>
      rw [hbuild] at hd2
      have hsome : some path = some d := hd2
      have hpd : path = d := Option.some.inj hsome
      subst hpd
      show (if fs.pexists path = true then _ else _) = _
      rw [hdex]
      simp

/-- A source whose destination already exists aborts its step (without
force) with the error naming that destination. -/
theorem validateStep_collision {sp dp : List Char} {fs : FS}
    {src d : List Char} (hd : plannedDest sp dp src = some d)
    (hdex : fs.pexists d = true) :
    validateStep sp dp false fs src = Sum.inl (MassResult.err
      ("mmv: Not able to replace existing file: ".toList ++ d)) := by
  unfold plannedDest at hd
  unfold validateStep
  cases hext : extract_generic_parts src sp with
  | panic => rw [hext] at hd; exact absurd hd (by simp)
  | outside => rw [hext] at hd; exact absurd hd (by simp)
  | ok parts =>
    rw [hext] at hd
    have hd2 : (match build_target_path parts dp with
                | BuildResult.ok path => some path
                | _ => none) = some d := hd
    show (match build_target_path parts dp with
          | BuildResult.panic => Sum.inl MassResult.panic
          | BuildResult.outside => Sum.inl MassResult.outside
          | BuildResult.ok dest =>
            if fs.pexists dest = true then
              if false = true then
                match fs.removeFile dest with
                | some fs2 => Sum.inr (dest, fs2)
                | none => Sum.inl (MassResult.err
                    "mmv: Not able to replace existing file".toList)
              else Sum.inl (MassResult.err
                ("mmv: Not able to replace existing file: ".toList ++ dest))
            else Sum.inr (dest, fs)) =
      Sum.inl (MassResult.err
        ("mmv: Not able to replace existing file: ".toList ++ d))
    cases hbuild : build_target_path parts dp with
    | panic => rw [hbuild] at hd2; exact absurd hd2 (by simp)
    | outside => rw [hbuild] at hd2; exact absurd hd2 (by simp)
    | ok path =>
      rw [hbuild] at hd2
      have hsome : some path = some d := hd2
      have hpd : path = d := Option.some.inj hsome
      subst hpd
      show (if fs.pexists path = true then _ else _) = _
      rw [hdex]
      simp

theorem validateLoop_noforce_collision (sp dp : List Char) (fs : FS) :
    ∀ (pre : List (List Char)) (s0 : List Char) (post : List (List Char))
      (acc : List (List Char × List Char)) (d0 : List Char),
      (∀ s ∈ pre, ∃ d, plannedDest sp dp s = some d ∧
        fs.pexists d = false) →
      plannedDest sp dp s0 = some d0 → fs.pexists d0 = true →
      validateLoop sp dp false fs (pre ++ s0 :: post) acc =
        (Sum.inl (MassResult.err
          ("mmv: Not able to replace existing file: ".toList ++ d0)), fs) := by
  intro pre
  induction pre with
  | nil =>
    intro s0 post acc d0 _ hd0 hex
    rw [List.nil_append]
    rw [show validateLoop sp dp false fs (s0 :: post) acc =
        (match validateStep sp dp false fs s0 with
         | Sum.inl r => (Sum.inl r, fs)
         | Sum.inr (dest, fs2) =>
           validateLoop sp dp false fs2 post (acc ++ [(s0, dest)]))
        from rfl]
    rw [validateStep_collision hd0 hex]
  | cons s pre2 ih =>
    intro s0 post acc d0 hpre hd0 hex
    obtain ⟨d, hd, hdex⟩ := hpre s (List.mem_cons_self s pre2)
    rw [List.cons_append]
    rw [show validateLoop sp dp false fs (s :: (pre2 ++ s0 :: post)) acc =
        (match validateStep sp dp false fs s with
         | Sum.inl r => (Sum.inl r, fs)
         | Sum.inr (dest, fs2) =>
           validateLoop sp dp false fs2 (pre2 ++ s0 :: post)
             (acc ++ [(s, dest)]))
        from rfl]
    rw [validateStep_free hd hdex]
    exact ih s0 post (acc ++ [(s, d)]) d0
      (fun x hx => hpre x (List.mem_cons_of_mem _ hx)) hd0 hex

/-- C2: with `force` = false, whenever some computed destination path
already exists in the filesystem, `mass_move` returns the
"Not able to replace existing file" error naming the first such
destination, and the filesystem is returned unchanged — no file is renamed
or deleted, including sources validated earlier in the pass. -/
theorem mass_move_noforce_dest_exists (fs : FS) (sp dp : List Char)
    (srcs pre post : List (List Char)) (s0 d0 : List Char)
    (hfind : find_matching_files fs sp = Except.ok srcs)
    (hsplit : srcs = pre ++ s0 :: post)
    (hpre : ∀ s ∈ pre, ∃ d, plannedDest sp dp s = some d ∧
      fs.pexists d = false)
    (hd0 : plannedDest sp dp s0 = some d0)
    (hex : fs.pexists d0 = true) :
    mass_move fs sp dp false =
      (MassResult.err ("mmv: Not able to replace existing file: ".toList ++
        d0), fs) := by
  unfold mass_move
  rw [hfind]
  show finishMove dp (validateLoop sp dp false fs srcs []) = _
  subst hsplit
  rw [validateLoop_noforce_collision sp dp fs pre s0 post [] d0 hpre hd0 hex]
  rfl

/-- Witness for C2: one matching source "d/a.txt", destination template
"out/#1.out", and a pre-existing "out/a.out". -/
theorem mass_move_noforce_dest_exists_witness :
    mass_move ⟨["d".toList], ["d/a.txt".toList, "out/a.out".toList]⟩
        "d/*.txt".toList "out/#1.out".toList false =
      (MassResult.err ("mmv: Not able to replace existing file: ".toList ++
        "out/a.out".toList),
       ⟨["d".toList], ["d/a.txt".toList, "out/a.out".toList]⟩) :=
  mass_move_noforce_dest_exists
    ⟨["d".toList], ["d/a.txt".toList, "out/a.out".toList]⟩
    "d/*.txt".toList "out/#1.out".toList ["d/a.txt".toList] []
    [] "d/a.txt".toList "out/a.out".toList rfl rfl
    (fun s hs => absurd hs (by simp)) (by decide) (by decide)

end MMV
